import Mathlib

/-!
Verification of the redakt PII-redaction engine (src/redakt.js, src/patterns.js).

The JavaScript engine is embedded shallowly:
* each regular expression of the pattern registry is translated into an
  executable backtracking matcher (`Rx`, `M`) that follows JavaScript regex
  semantics (ordered alternation, greedy/lazy quantifiers, word boundaries,
  leftmost matching, case-insensitive literals);
* `String.prototype.replace` with a global regex and a callback becomes
  `scanRep`, `String.prototype.match` becomes `allMatches`, and the
  single-shot `replace` used inside the urlWithCreds replacer becomes
  `replaceFirst`;
* the registry, the option handling (`getActivePatterns`) and the two entry
  points `redact` and `detect` are translated line by line.

A declarative acceptance relation `Sat` plus the soundness theorem `M_sound`
connect operational matching to the shape of the consumed substring, which
the per-claim theorems build on.
-/

namespace Redakt

/-! ## Character classes (JavaScript semantics, ASCII reasoning via toNat) -/

def isSpaceJS (c : Char) : Bool :=
  let n := c.toNat
  n == 32 || n == 9 || n == 10 || n == 11 || n == 12 || n == 13 || n == 160 ||
  n == 5760 || (decide (8192 ≤ n) && decide (n ≤ 8202)) || n == 8232 ||
  n == 8233 || n == 8239 || n == 8287 || n == 12288 || n == 65279

def isDigitCh (c : Char) : Bool :=
  decide (48 ≤ c.toNat) && decide (c.toNat ≤ 57)

def isUpperCh (c : Char) : Bool :=
  decide (65 ≤ c.toNat) && decide (c.toNat ≤ 90)

def isLowerCh (c : Char) : Bool :=
  decide (97 ≤ c.toNat) && decide (c.toNat ≤ 122)

def isAlphaCh (c : Char) : Bool := isUpperCh c || isLowerCh c

def isAlnumCh (c : Char) : Bool := isAlphaCh c || isDigitCh c

def isWordCh (c : Char) : Bool := isAlnumCh c || c == '_'

/-- Email local part, `[A-Za-z0-9._%+-]`. -/
def localCh (c : Char) : Bool :=
  isAlnumCh c || c == '.' || c == '_' || c == '%' || c == '+' || c == '-'

/-- Email domain, `[A-Za-z0-9.-]`. -/
def domCh (c : Char) : Bool := isAlnumCh c || c == '.' || c == '-'

/-- Email TLD, `[A-Z|a-z]` (the literal pipe is part of the class). -/
def tldCh (c : Char) : Bool := isUpperCh c || isLowerCh c || c == '|'

/-- JWT header/payload segment, `[A-Za-z0-9\-_]`. -/
def jwtSegCh (c : Char) : Bool := isAlnumCh c || c == '-' || c == '_'

/-- JWT signature segment, `[A-Za-z0-9\-_.+/=]`. -/
def jwtTailCh (c : Char) : Bool :=
  isAlnumCh c || c == '-' || c == '_' || c == '.' || c == '+' || c == '/' || c == '='

/-- `[^\s:]`. -/
def notSpColon (c : Char) : Bool := !(isSpaceJS c) && !(c == ':')

/-- `[^\s@]`. -/
def notSpAt (c : Char) : Bool := !(isSpaceJS c) && !(c == '@')

/-- `[^\s]`. -/
def notSp (c : Char) : Bool := !(isSpaceJS c)

/-- Bearer token first segments, `[A-Za-z0-9\-_=]`. -/
def tokCh1 (c : Char) : Bool := isAlnumCh c || c == '-' || c == '_' || c == '='

/-- Bearer token tail, `[A-Za-z0-9\-_.+/=]`. -/
def tokCh2 (c : Char) : Bool :=
  isAlnumCh c || c == '-' || c == '_' || c == '.' || c == '+' || c == '/' || c == '='

def hexCh (c : Char) : Bool :=
  isDigitCh c ||
  (decide (97 ≤ c.toNat) && decide (c.toNat ≤ 102)) ||
  (decide (65 ≤ c.toNat) && decide (c.toNat ≤ 70))

/-- AWS secret alphabet, `[A-Za-z0-9/+=]`. -/
def b64Ch (c : Char) : Bool := isAlnumCh c || c == '/' || c == '+' || c == '='

/-- `[A-Z0-9]`. -/
def upAlnumCh (c : Char) : Bool := isUpperCh c || isDigitCh c

/-- `[- ]` (credit-card group separator). -/
def dashSpCh (c : Char) : Bool := c == '-' || c == ' '

/-- `[-.\s]` (phone separator). -/
def phoneSepCh (c : Char) : Bool := c == '-' || c == '.' || isSpaceJS c

/-- `[baprs]` (slack token kind). -/
def slackCh (c : Char) : Bool :=
  c == 'b' || c == 'a' || c == 'p' || c == 'r' || c == 's'

/-- `[0-5]`. -/
def d05 (c : Char) : Bool := decide (48 ≤ c.toNat) && decide (c.toNat ≤ 53)

/-- `[0-4]`. -/
def d04 (c : Char) : Bool := decide (48 ≤ c.toNat) && decide (c.toNat ≤ 52)

/-- `[01]`. -/
def d01 (c : Char) : Bool := c == '0' || c == '1'

/-- `[1-5]`. -/
def d15 (c : Char) : Bool := decide (49 ≤ c.toNat) && decide (c.toNat ≤ 53)

/-- `[47]`. -/
def d47 (c : Char) : Bool := c == '4' || c == '7'

/-! ## Regex abstract syntax -/

/-- Abstract syntax of the regexes used by the pattern registry.  Unbounded
quantifiers only ever range over single-character classes in the source, so
`starC`/`lazyPlusC` take a character predicate; bounded repetition `rep`
takes any sub-expression. -/
inductive Rx : Type where
  | eps : Rx
  | cls : (Char → Bool) → Rx
  | lit : List Char → Bool → Rx
  | cat : Rx → Rx → Rx
  | alt : Rx → Rx → Rx
  | opt : Rx → Rx
  | starC : (Char → Bool) → Rx
  | lazyPlusC : (Char → Bool) → Rx
  | rep : Rx → Nat → Rx
  | wb : Rx

/-- Character comparison, case-insensitive when `ci` is set (JS `i` flag). -/
def chEq (ci : Bool) (a b : Char) : Bool :=
  if ci then a.toLower == b.toLower else a == b

/-- Consume the literal `cs` from the front of `s`, returning the rest. -/
def litRest (ci : Bool) : List Char → List Char → Option (List Char)
  | [], s => some s
  | _ :: _, [] => none
  | c :: cs, d :: s => if chEq ci c d then litRest ci cs s else none

/-- The last character of `pr` extended by `l` (threading of the previous
character for word-boundary tests). -/
def pushAll (pr : Option Char) : List Char → Option Char
  | [] => pr
  | c :: cs => pushAll (some c) cs

def wordAt : Option Char → Bool
  | none => false
  | some c => isWordCh c

def headWord : List Char → Bool
  | [] => false
  | c :: _ => isWordCh c

/-- JavaScript `\b`: word-ness differs between the previous character and the
next one. -/
def wordBoundary (pr : Option Char) (s : List Char) : Bool :=
  wordAt pr != headWord s

/-- Backtracking matcher in continuation-passing style.  `pr` is the
character just before the current position (for `\b`), `k` receives the new
previous character and the remaining input.  Alternation tries the left
branch first, `opt`/`starC` are greedy, `lazyPlusC` is lazy: exactly the
JavaScript order of preference.  `fuel` bounds the recursion depth; all
concrete uses supply ample fuel via `fuelFor`. -/
def M : Nat → Rx → Option Char → List Char → (Option Char → List Char → Option Nat) → Option Nat
  | 0, _, _, _, _ => none
  | fuel+1, r, pr, s, k =>
    match r with
    | .eps => k pr s
    | .cls p =>
      match s with
      | [] => none
      | c :: rest => if p c then k (some c) rest else none
    | .lit cs ci =>
      match litRest ci cs s with
      | some rest => k (pushAll pr (s.take cs.length)) rest
      | none => none
    | .cat a b => M fuel a pr s (fun pr2 s2 => M fuel b pr2 s2 k)
    | .alt a b => (M fuel a pr s k).orElse (fun _ => M fuel b pr s k)
    | .opt a => (M fuel a pr s k).orElse (fun _ => k pr s)
    | .starC p =>
      match s with
      | [] => k pr []
      | c :: rest =>
        if p c then (M fuel (.starC p) (some c) rest k).orElse (fun _ => k pr (c :: rest))
        else k pr (c :: rest)
    | .lazyPlusC p =>
      match s with
      | [] => none
      | c :: rest =>
        if p c then (k (some c) rest).orElse (fun _ => M fuel (.lazyPlusC p) (some c) rest k)
        else none
    | .rep a n =>
      match n with
      | 0 => k pr s
      | n+1 => M fuel a pr s (fun pr2 s2 => M fuel (.rep a n) pr2 s2 k)
    | .wb => if wordBoundary pr s then k pr s else none

/-- Fuel estimate: recursion depth is bounded by the sequentially expanded
size of the regex plus the number of characters consumed by unbounded
quantifiers. -/
def Rx.fsize : Rx → Nat
  | .eps => 1
  | .cls _ => 1
  | .lit cs _ => cs.length + 1
  | .cat a b => a.fsize + b.fsize + 1
  | .alt a b => a.fsize + b.fsize + 1
  | .opt a => a.fsize + 1
  | .starC _ => 1
  | .lazyPlusC _ => 1
  | .rep a n => (a.fsize + 1) * n + 1
  | .wb => 1

def fuelFor (r : Rx) (s : List Char) : Nat := (r.fsize + s.length + 2) * 4

/-- Length of the match of `r` starting exactly at the current position (the
anchored attempt JavaScript makes at each index during a scan). -/
def matchAt (r : Rx) (pr : Option Char) (s : List Char) : Option Nat :=
  M (fuelFor r s) r pr s (fun _ rem => some (s.length - rem.length))

/-- One global-regex replace pass with a callback
(`String.prototype.replace` with the `g` flag): scan left to right, at each
position attempt an anchored match; on success emit the callback's output
and continue after the match, otherwise emit the character and advance.
Returns the new text and the number of callback invocations whose output
differed from the matched substring (the source's `count`). -/
def scanRepF (r : Rx) (rp : List Char → List Char) :
    Nat → Option Char → List Char → List Char × Nat
  | _, _, [] => ([], 0)
  | 0, _, s => (s, 0)
  | fuel+1, pr, c :: rest =>
    match matchAt r pr (c :: rest) with
    | none =>
      let out := scanRepF r rp fuel (some c) rest
      (c :: out.1, out.2)
    | some n =>
      if n = 0 then
        let rpl := rp []
        let out := scanRepF r rp fuel (some c) rest
        (rpl ++ c :: out.1, (if rpl == ([] : List Char) then 0 else 1) + out.2)
      else
        let m := (c :: rest).take n
        let rpl := rp m
        let out := scanRepF r rp fuel (pushAll pr m) ((c :: rest).drop n)
        (rpl ++ out.1, (if rpl == m then 0 else 1) + out.2)

def scanRep (r : Rx) (rp : List Char → List Char) (s : List Char) : List Char × Nat :=
  scanRepF r rp s.length none s

/-- `String.prototype.match` with the `g` flag: the list of matched
substrings, left to right. -/
def allMatchesF (r : Rx) : Nat → Option Char → List Char → List (List Char)
  | _, _, [] => []
  | 0, _, _ => []
  | fuel+1, pr, c :: rest =>
    match matchAt r pr (c :: rest) with
    | none => allMatchesF r fuel (some c) rest
    | some n =>
      if n = 0 then [] :: allMatchesF r fuel (some c) rest
      else (c :: rest).take n :: allMatchesF r fuel (pushAll pr ((c :: rest).take n)) ((c :: rest).drop n)

def allMatches (r : Rx) (s : List Char) : List (List Char) :=
  allMatchesF r s.length none s

/-- Non-global `String.prototype.replace` with a fixed replacement string:
replace the first match only. -/
def replaceFirst (r : Rx) (rpl : List Char) : Option Char → List Char → List Char
  | _, [] => []
  | pr, c :: rest =>
    match matchAt r pr (c :: rest) with
    | some n => rpl ++ (c :: rest).drop n
    | none => c :: replaceFirst r rpl (some c) rest

/-! ## The concrete regexes of src/patterns.js -/

def chC (c : Char) : Rx := .cls (fun d => d == c)

def plusC (p : Char → Bool) : Rx := .cat (.cls p) (.starC p)

/-- `p{n,}`. -/
def repMinC (p : Char → Bool) (n : Nat) : Rx := .cat (.rep (.cls p) n) (.starC p)

/-- Greedy chain of up to `n` further characters of class `p`. -/
def optChainC (p : Char → Bool) : Nat → Rx
  | 0 => .eps
  | n+1 => .opt (.cat (.cls p) (optChainC p n))

/-- `p{min,min+extra}` (greedy). -/
def rangeC (p : Char → Bool) (min extra : Nat) : Rx :=
  .cat (.rep (.cls p) min) (optChainC p extra)

/-- Greedy chain of up to `n` further copies of `r`. -/
def optReps (r : Rx) : Nat → Rx
  | 0 => .eps
  | n+1 => .opt (.cat r (optReps r n))

/-- `r{min,min+extra}` (greedy). -/
def rangeR (r : Rx) (min extra : Nat) : Rx := .cat (.rep r min) (optReps r extra)

def lits (s : String) : Rx := .lit s.data false

def litsCI (s : String) : Rx := .lit s.data true

def cats : List Rx → Rx
  | [] => .eps
  | [r] => r
  | r :: rs => .cat r (cats rs)

def alts : List Rx → Rx
  | [] => .eps
  | [r] => r
  | r :: rs => .alt r (alts rs)

def anyCh (_ : Char) : Bool := true

/-- `-----BEGIN (?:RSA |DSA |EC |OPENSSH )?PRIVATE KEY-----[\s\S]+?-----END (?:RSA |DSA |EC |OPENSSH )?PRIVATE KEY-----` -/
def privateKeyRx : Rx :=
  cats [lits "-----BEGIN ",
        .opt (alts [lits "RSA ", lits "DSA ", lits "EC ", lits "OPENSSH "]),
        lits "PRIVATE KEY-----",
        .lazyPlusC anyCh,
        lits "-----END ",
        .opt (alts [lits "RSA ", lits "DSA ", lits "EC ", lits "OPENSSH "]),
        lits "PRIVATE KEY-----"]

/-- `\beyJ[A-Za-z0-9\-_]+\.eyJ[A-Za-z0-9\-_]+\.[A-Za-z0-9\-_.+/=]+` -/
def jwtRx : Rx :=
  cats [.wb, lits "eyJ", plusC jwtSegCh, chC '.', lits "eyJ", plusC jwtSegCh,
        chC '.', plusC jwtTailCh]

/-- `(?:https?|ftp):\/\/[^\s:]+:[^\s@]+@[^\s]+` with the `i` flag. -/
def urlWithCredsRx : Rx :=
  cats [alts [.cat (litsCI "http") (.opt (litsCI "s")), litsCI "ftp"],
        lits "://", plusC notSpColon, chC ':', plusC notSpAt, chC '@', plusC notSp]

/-- `:\/\/[^\s:]+:[^\s@]+@` — the inner replace inside the urlWithCreds
replacer. -/
def urlCredSegRx : Rx :=
  cats [lits "://", plusC notSpColon, chC ':', plusC notSpAt, chC '@']

/-- `\b(?:ghp|gho|ghu|ghs|ghr)_[A-Za-z0-9]{36,}\b` -/
def githubTokenRx : Rx :=
  cats [.wb, alts [lits "ghp", lits "gho", lits "ghu", lits "ghs", lits "ghr"],
        chC '_', repMinC isAlnumCh 36, .wb]

/-- `\bxox[baprs]-\d+-\d+-[a-zA-Z0-9]+\b` -/
def slackTokenRx : Rx :=
  cats [.wb, lits "xox", .cls slackCh, chC '-', plusC isDigitCh, chC '-',
        plusC isDigitCh, chC '-', plusC isAlnumCh, .wb]

/-- `\b(?:A3T[A-Z0-9]|AKIA|AGPA|AIDA|AROA|AIPA|ANPA|ANVA|ASIA)[A-Z0-9]{16}\b` -/
def awsKeyRx : Rx :=
  cats [.wb,
        alts [.cat (lits "A3T") (.cls upAlnumCh), lits "AKIA", lits "AGPA",
              lits "AIDA", lits "AROA", lits "AIPA", lits "ANPA", lits "ANVA",
              lits "ASIA"],
        .rep (.cls upAlnumCh) 16, .wb]

/-- `\b(?:Bearer|Basic)\s+[A-Za-z0-9\-_=]+\.?[A-Za-z0-9\-_=]*\.?[A-Za-z0-9\-_.+/=]*` with the `i` flag. -/
def bearerTokenRx : Rx :=
  cats [.wb, alts [litsCI "Bearer", litsCI "Basic"], plusC isSpaceJS,
        plusC tokCh1, .opt (chC '.'), .starC tokCh1, .opt (chC '.'), .starC tokCh2]

/-- Credit card regex: brand alternatives or four dash/space separated groups. -/
def creditCardRx : Rx :=
  cats [.wb,
        alts [cats [chC '4', .rep (.cls isDigitCh) 12, .opt (.rep (.cls isDigitCh) 3)],
              cats [chC '5', .cls d15, .rep (.cls isDigitCh) 14],
              cats [chC '3', .cls d47, .rep (.cls isDigitCh) 13],
              cats [chC '6', alts [lits "011", .cat (chC '5') (.rep (.cls isDigitCh) 2)],
                    .rep (.cls isDigitCh) 12],
              cats [.rep (.cls isDigitCh) 4, .opt (.cls dashSpCh),
                    .rep (.cls isDigitCh) 4, .opt (.cls dashSpCh),
                    .rep (.cls isDigitCh) 4, .opt (.cls dashSpCh),
                    .rep (.cls isDigitCh) 4]],
        .wb]

/-- `\b[0-9]{3}-[0-9]{2}-[0-9]{4}\b|\b[0-9]{3}\s[0-9]{2}\s[0-9]{4}\b` -/
def ssnRx : Rx :=
  alts [cats [.wb, .rep (.cls isDigitCh) 3, chC '-', .rep (.cls isDigitCh) 2,
              chC '-', .rep (.cls isDigitCh) 4, .wb],
        cats [.wb, .rep (.cls isDigitCh) 3, .cls isSpaceJS, .rep (.cls isDigitCh) 2,
              .cls isSpaceJS, .rep (.cls isDigitCh) 4, .wb]]

/-- `\b[A-Za-z0-9._%+-]+@[A-Za-z0-9.-]+\.[A-Z|a-z]{2,}\b` -/
def emailRx : Rx :=
  cats [.wb, plusC localCh, chC '@', plusC domCh, chC '.', repMinC tldCh 2, .wb]

/-- `\b(?:\+?1[-.\s]?)?\(?[0-9]{3}\)?[-.\s][0-9]{3}[-.\s][0-9]{4}\b` -/
def phoneRx : Rx :=
  cats [.wb,
        .opt (cats [.opt (chC '+'), chC '1', .opt (.cls phoneSepCh)]),
        .opt (chC '('), .rep (.cls isDigitCh) 3, .opt (chC ')'),
        .cls phoneSepCh, .rep (.cls isDigitCh) 3, .cls phoneSepCh,
        .rep (.cls isDigitCh) 4, .wb]

/-- `25[0-5]|2[0-4][0-9]|[01]?[0-9][0-9]?` -/
def octetRx : Rx :=
  alts [.cat (lits "25") (.cls d05),
        cats [chC '2', .cls d04, .cls isDigitCh],
        cats [.opt (.cls d01), .cls isDigitCh, .opt (.cls isDigitCh)]]

/-- `\b(?:(?:25[0-5]|2[0-4][0-9]|[01]?[0-9][0-9]?)\.){3}(?:25[0-5]|2[0-4][0-9]|[01]?[0-9][0-9]?)\b` -/
def ipv4Rx : Rx :=
  cats [.wb, .rep (.cat octetRx (chC '.')) 3, octetRx, .wb]

/-- `[0-9a-fA-F]{1,4}` -/
def h14 : Rx := rangeC hexCh 1 3

/-- The three IPv6 alternatives of the source. -/
def ipv6Rx : Rx :=
  alts [cats [.wb, .rep (.cat h14 (chC ':')) 7, h14, .wb],
        cats [.wb, rangeR (.cat h14 (chC ':')) 1 6, chC ':', .wb],
        cats [.wb, rangeR (.cat h14 (chC ':')) 1 5, chC ':', h14, .wb]]

/-- `\b[A-Za-z0-9/+=]{40}\b` -/
def awsSecretRx : Rx := cats [.wb, .rep (.cls b64Ch) 40, .wb]

/-- `\b[a-fA-F0-9]{32,}\b` -/
def hexSecretRx : Rx := cats [.wb, repMinC hexCh 32, .wb]

/-! ## Pattern registry (src/patterns.js) -/

structure Pat where
  regex : Rx
  replace : List Char → List Char
  description : String
  priority : Nat

def fixedRepl (s : String) : List Char → List Char := fun _ => s.data

/-- `match.replace(/:\/\/[^\s:]+:[^\s@]+@/, '://[REDACTED]@')`. -/
def urlCredsRepl (m : List Char) : List Char :=
  replaceFirst urlCredSegRx ("://[REDACTED]@".data) none m

/-- Redact only when the match has more than 15 distinct characters. -/
def awsSecretRepl (m : List Char) : List Char :=
  if 15 < m.eraseDups.length then "[AWS_SECRET]".data else m

def hexSecretRepl (m : List Char) : List Char :=
  if 32 ≤ m.length then "[HEX_SECRET]".data else m

/-- The registry, in the insertion order of the source object literal. -/
def patternList : List (String × Pat) :=
  [("privateKey", ⟨privateKeyRx, fixedRepl "[PRIVATE_KEY]", "Private keys (PEM format)", 10⟩),
   ("jwt", ⟨jwtRx, fixedRepl "[JWT]", "JSON Web Tokens", 20⟩),
   ("urlWithCreds", ⟨urlWithCredsRx, urlCredsRepl, "URLs containing credentials", 25⟩),
   ("githubToken", ⟨githubTokenRx, fixedRepl "[GITHUB_TOKEN]", "GitHub personal access tokens", 30⟩),
   ("slackToken", ⟨slackTokenRx, fixedRepl "[SLACK_TOKEN]", "Slack tokens", 35⟩),
   ("awsKey", ⟨awsKeyRx, fixedRepl "[AWS_KEY]", "AWS Access Key IDs", 40⟩),
   ("bearerToken", ⟨bearerTokenRx, fixedRepl "[AUTH_TOKEN]", "Bearer/Basic auth tokens", 45⟩),
   ("creditCard", ⟨creditCardRx, fixedRepl "[CREDIT_CARD]", "Credit card numbers", 50⟩),
   ("ssn", ⟨ssnRx, fixedRepl "[SSN]", "Social Security Numbers", 55⟩),
   ("email", ⟨emailRx, fixedRepl "[EMAIL]", "Email addresses", 60⟩),
   ("phone", ⟨phoneRx, fixedRepl "[PHONE]", "Phone numbers (US format)", 70⟩),
   ("ipv4", ⟨ipv4Rx, fixedRepl "[IPv4]", "IPv4 addresses", 80⟩),
   ("ipv6", ⟨ipv6Rx, fixedRepl "[IPv6]", "IPv6 addresses", 85⟩),
   ("awsSecret", ⟨awsSecretRx, awsSecretRepl, "AWS Secret Access Keys", 90⟩),
   ("hexSecret", ⟨hexSecretRx, hexSecretRepl, "Hex-encoded secrets/hashes (32+ chars)", 100⟩)]

def patterns (name : String) : Option Pat := patternList.lookup name

def defaultPatterns : List String :=
  ["privateKey", "jwt", "urlWithCreds", "githubToken", "slackToken",
   "bearerToken", "creditCard", "ssn", "email", "phone", "ipv4"]

def allPatternNames : List String := patternList.map (·.1)

/-! ## Engine (src/redakt.js) -/

structure RedactOptions where
  all : Bool := false
  include' : List String := []
  exclude : List String := []
  stats : Bool := false

/-- `getActivePatterns` of the source: precedence `all` over non-empty
`include` over the defaults, then exclusion, then validation of what is
left. -/
def getActivePatterns (o : RedactOptions) : Except (List String) (List String) :=
  let base := if o.all then allPatternNames
              else if o.include' ≠ [] then o.include'
              else defaultPatterns
  let active := if o.exclude ≠ [] then base.filter (fun p => !(o.exclude.contains p)) else base
  let invalid := active.filter (fun p => (patterns p).isNone)
  if invalid ≠ [] then .error invalid else .ok active

structure RedactStats where
  total : Nat
  byType : List (String × Nat)
deriving DecidableEq, Repr

structure RedactResult where
  text : String
  stats : Option RedactStats
deriving DecidableEq, Repr

/-- JavaScript object assignment `m[key] = v`: overwrite in place or append. -/
def setKey (m : List (String × Nat)) (key : String) (v : Nat) : List (String × Nat) :=
  if m.any (fun e => e.1 == key) then
    m.map (fun e => if e.1 == key then (key, v) else e)
  else m ++ [(key, v)]

/-- One step of `redact`'s pattern loop: run the pattern's global replace
pass over the current text and record its count when positive. -/
def redactStep (acc : String × Option RedactStats) (name : String) :
    String × Option RedactStats :=
  match patterns name with
  | none => acc
  | some p =>
    let r := scanRep p.regex p.replace acc.1.data
    let st := match acc.2 with
      | none => none
      | some st =>
        if 0 < r.2 then some ⟨st.total + r.2, setKey st.byType name r.2⟩
        else some st
    (⟨r.1⟩, st)

/-- `redact` of the source: run each active pattern over the current text in
order, counting only callback invocations that changed their input. -/
def redact (text : String) (o : RedactOptions) : Except (List String) RedactResult :=
  match getActivePatterns o with
  | .error e => .error e
  | .ok names =>
    let init : String × Option RedactStats :=
      (text, if o.stats then some ⟨0, []⟩ else none)
    let res := names.foldl redactStep init
    .ok ⟨res.1, res.2⟩

structure DetectEntry where
  count : Nat
  description : String
  samples : List String
deriving DecidableEq, Repr

structure DetectResult where
  hasSensitiveData : Bool
  matches' : List (String × DetectEntry)
  total : Nat
deriving DecidableEq, Repr

/-- First-seen de-duplication (JavaScript `[...new Set(matches)]`). -/
def dedupAux (seen : List (List Char)) : List (List Char) → List (List Char)
  | [] => []
  | x :: xs =>
    if seen.contains x then dedupAux seen xs else x :: dedupAux (x :: seen) xs

def dedupFS (l : List (List Char)) : List (List Char) := dedupAux [] l

/-- `m.length > 6 ? m.slice(0, 3) + '...' + m.slice(-3) : '***'`. -/
def maskSample (m : List Char) : String :=
  if 6 < m.length then
    String.mk (m.take 3) ++ "..." ++ String.mk (m.drop (m.length - 3))
  else "***"

/-- JavaScript object assignment for the detection report. -/
def setEntry (m : List (String × DetectEntry)) (key : String) (v : DetectEntry) :
    List (String × DetectEntry) :=
  if m.any (fun e => e.1 == key) then
    m.map (fun e => if e.1 == key then (key, v) else e)
  else m ++ [(key, v)]

/-- One step of `detect`'s pattern loop: match the pattern against the
original text and record count and masked samples when matches exist. -/
def detectStep (text : String) (r : DetectResult) (name : String) : DetectResult :=
  match patterns name with
  | none => r
  | some p =>
    let ms := allMatches p.regex text.data
    if 0 < ms.length then
      { hasSensitiveData := true
        matches' := setEntry r.matches' name
          ⟨ms.length, p.description, ((dedupFS ms).take 3).map maskSample⟩
        total := r.total + ms.length }
    else r

/-- `detect` of the source: every active pattern is matched independently
against the original text; replacers are never consulted. -/
def detect (text : String) (o : RedactOptions) : Except (List String) DetectResult :=
  match getActivePatterns o with
  | .error e => .error e
  | .ok names =>
    .ok (names.foldl (detectStep text) ⟨false, [], 0⟩)

end Redakt


namespace Redakt

/-! ## Auxiliary definitions used by the claim statements -/

/-- Decimal value of a digit string. -/
def octVal (o : List Char) : Nat := o.foldl (fun a c => 10 * a + (c.toNat - 48)) 0

/-- Sample masking as worded by the specification: first three characters,
an ellipsis, and the last three characters for matches longer than six
characters, a fixed mask otherwise. -/
def maskSpec (m : List Char) : String :=
  if 6 < m.length then
    String.mk (m.take 3) ++ "..." ++ String.mk ((m.reverse.take 3).reverse)
  else "***"

/-- Base rule set as worded by the specification's selection-policy
precedence: `all` over non-empty `include` over the default names. -/
def baseSpec (o : RedactOptions) : List String :=
  if o.all then allPatternNames
  else if o.include' ≠ [] then o.include'
  else defaultPatterns

/-- Active list as worded by the specification: the base set with the
excluded names subtracted last. -/
def activeSpec (o : RedactOptions) : List String :=
  (baseSpec o).filter (fun p => !(o.exclude.contains p))

end Redakt

namespace Redakt

/-! ## Declarative acceptance relation and soundness of the matcher -/

/-- `Sat r xs`: the regex `r` can accept exactly the characters `xs`
(word-boundary context erased, so this is an over-approximation suitable for
soundness reasoning about the shape of matched substrings). -/
inductive Sat : Rx → List Char → Prop where
  | eps : Sat .eps []
  | cls {p : Char → Bool} {c : Char} : p c = true → Sat (.cls p) [c]
  | lit {cs : List Char} {ci : Bool} {xs : List Char} :
      litRest ci cs xs = some [] → Sat (.lit cs ci) xs
  | cat {a b : Rx} {xs ys : List Char} :
      Sat a xs → Sat b ys → Sat (.cat a b) (xs ++ ys)
  | altL {a b : Rx} {xs : List Char} : Sat a xs → Sat (.alt a b) xs
  | altR {a b : Rx} {xs : List Char} : Sat b xs → Sat (.alt a b) xs
  | optS {a : Rx} {xs : List Char} : Sat a xs → Sat (.opt a) xs
  | optN {a : Rx} : Sat (.opt a) []
  | star {p : Char → Bool} {xs : List Char} :
      (∀ c ∈ xs, p c = true) → Sat (.starC p) xs
  | lazy {p : Char → Bool} {xs : List Char} :
      (∀ c ∈ xs, p c = true) → Sat (.lazyPlusC p) xs
  | rep0 {a : Rx} : Sat (.rep a 0) []
  | repS {a : Rx} {n : Nat} {xs ys : List Char} :
      Sat a xs → Sat (.rep a n) ys → Sat (.rep a (n+1)) (xs ++ ys)
  | wb : Sat .wb []

theorem pushAll_append (pr : Option Char) (xs ys : List Char) :
    pushAll pr (xs ++ ys) = pushAll (pushAll pr xs) ys := by
  induction xs generalizing pr with
  | nil => rfl
  | cons c cs ih => simp [pushAll, ih]

theorem litRest_decomp {ci : Bool} :
    ∀ {cs s rest : List Char}, litRest ci cs s = some rest →
      ∃ pre, s = pre ++ rest ∧ pre.length = cs.length ∧ litRest ci cs pre = some [] := by
  intro cs
  induction cs with
  | nil =>
    intro s rest h
    simp [litRest] at h
    exact ⟨[], by simp [h], rfl, rfl⟩
  | cons c cs ih =>
    intro s rest h
    cases s with
    | nil => simp [litRest] at h
    | cons d s =>
      simp only [litRest] at h
      by_cases hc : chEq ci c d
      · rw [if_pos hc] at h
        obtain ⟨pre, hs, hlen, hpre⟩ := ih h
        exact ⟨d :: pre, by simp [hs], by simp [hlen], by simp [litRest, hc, hpre]⟩
      · rw [if_neg hc] at h
        exact absurd h (by simp)

theorem orElse_some {α : Type} {x : Option α} {y : Unit → Option α} {v : α}
    (h : x.orElse y = some v) : x = some v ∨ (x = none ∧ y () = some v) := by
  cases x with
  | none =>
    right
    refine ⟨rfl, ?_⟩
    simpa [Option.orElse] using h
  | some a =>
    left
    simpa [Option.orElse] using h

/-- Soundness of the backtracking matcher: a successful run splits the input
into an accepted part and a rest handed to the continuation. -/
theorem M_sound : ∀ (fuel : Nat) {r : Rx} {pr : Option Char} {s : List Char}
    {k : Option Char → List Char → Option Nat} {v : Nat},
    M fuel r pr s k = some v →
    ∃ xs rest, s = xs ++ rest ∧ Sat r xs ∧ k (pushAll pr xs) rest = some v := by
  intro fuel
  induction fuel with
  | zero => intro r pr s k v h; simp [M] at h
  | succ fuel ih =>
    intro r pr s k v h
    cases r with
    | eps =>
      simp only [M] at h
      exact ⟨[], s, rfl, .eps, h⟩
    | cls p =>
      cases s with
      | nil => simp [M] at h
      | cons c rest =>
        simp only [M] at h
        by_cases hc : p c
        · rw [if_pos hc] at h
          exact ⟨[c], rest, rfl, .cls hc, h⟩
        · rw [if_neg hc] at h
          exact absurd h (by simp)
    | lit cs ci =>
      simp only [M] at h
      cases hl : litRest ci cs s with
      | none => rw [hl] at h; exact absurd h (by simp)
      | some rest =>
        rw [hl] at h
        obtain ⟨pre, hs, hlen, hpre⟩ := litRest_decomp hl
        refine ⟨pre, rest, hs, .lit hpre, ?_⟩
        have : s.take cs.length = pre := by
          rw [hs, ← hlen, List.take_left]
        rwa [this] at h
    | cat a b =>
      simp only [M] at h
      obtain ⟨xs, rest, hs, sa, hk⟩ := ih h
      obtain ⟨ys, rest2, hr, sb, hk2⟩ := ih hk
      refine ⟨xs ++ ys, rest2, ?_, .cat sa sb, ?_⟩
      · rw [hs, hr, List.append_assoc]
      · rwa [pushAll_append]
    | alt a b =>
      simp only [M] at h
      rcases orElse_some h with h1 | ⟨-, h2⟩
      · obtain ⟨xs, rest, hs, sa, hk⟩ := ih h1
        exact ⟨xs, rest, hs, .altL sa, hk⟩
      · obtain ⟨xs, rest, hs, sb, hk⟩ := ih h2
        exact ⟨xs, rest, hs, .altR sb, hk⟩
    | opt a =>
      simp only [M] at h
      rcases orElse_some h with h1 | ⟨-, h2⟩
      · obtain ⟨xs, rest, hs, sa, hk⟩ := ih h1
        exact ⟨xs, rest, hs, .optS sa, hk⟩
      · exact ⟨[], s, rfl, .optN, h2⟩
    | starC p =>
      cases s with
      | nil =>
        simp only [M] at h
        exact ⟨[], [], rfl, .star (by simp), h⟩
      | cons c rest =>
        simp only [M] at h
        by_cases hc : p c
        · rw [if_pos hc] at h
          rcases orElse_some h with h1 | ⟨-, h2⟩
          · obtain ⟨xs, rest2, hs, sa, hk⟩ := ih h1
            cases sa with
            | star hall =>
              refine ⟨c :: xs, rest2, by rw [hs]; rfl, .star ?_, hk⟩
              intro d hd
              rcases List.mem_cons.mp hd with hd | hd
              · exact hd ▸ hc
              · exact hall d hd
          · exact ⟨[], c :: rest, rfl, .star (by simp), h2⟩
        · rw [if_neg hc] at h
          exact ⟨[], c :: rest, rfl, .star (by simp), h⟩
    | lazyPlusC p =>
      cases s with
      | nil => simp [M] at h
      | cons c rest =>
        simp only [M] at h
        by_cases hc : p c
        · rw [if_pos hc] at h
          rcases orElse_some h with h1 | ⟨-, h2⟩
          · refine ⟨[c], rest, rfl, .lazy ?_, h1⟩
            intro d hd
            rcases List.mem_singleton.mp hd with rfl
            exact hc
          · obtain ⟨xs, rest2, hs, sa, hk⟩ := ih h2
            cases sa with
            | lazy hall =>
              refine ⟨c :: xs, rest2, by rw [hs]; rfl, .lazy ?_, hk⟩
              intro d hd
              rcases List.mem_cons.mp hd with hd | hd
              · exact hd ▸ hc
              · exact hall d hd
        · rw [if_neg hc] at h
          exact absurd h (by simp)
    | rep a n =>
      cases n with
      | zero =>
        simp only [M] at h
        exact ⟨[], s, rfl, .rep0, h⟩
      | succ n =>
        simp only [M] at h
        obtain ⟨xs, rest, hs, sa, hk⟩ := ih h
        obtain ⟨ys, rest2, hr, sb, hk2⟩ := ih hk
        refine ⟨xs ++ ys, rest2, ?_, .repS sa sb, ?_⟩
        · rw [hs, hr, List.append_assoc]
        · rwa [pushAll_append]
    | wb =>
      simp only [M] at h
      by_cases hw : wordBoundary pr s
      · rw [if_pos hw] at h
        exact ⟨[], s, rfl, .wb, h⟩
      · rw [if_neg hw] at h
        exact absurd h (by simp)

/-- Soundness at the scan level: an anchored match of length `L` means the
first `L` characters are accepted by the regex. -/
theorem matchAt_sound {r : Rx} {pr : Option Char} {s : List Char} {L : Nat}
    (h : matchAt r pr s = some L) : L ≤ s.length ∧ Sat r (s.take L) := by
  obtain ⟨xs, rest, hs, sa, hk⟩ := M_sound (fuelFor r s) h
  simp only [Option.some_inj] at hk
  have hlen : s.length = xs.length + rest.length := by rw [hs]; simp
  have hL : L = xs.length := by omega
  have htake : s.take L = xs := by rw [hs, hL, List.take_left]
  rw [htake, hL]
  exact ⟨by omega, sa⟩

end Redakt

namespace Redakt

/-! ## Inversion lemmas for the acceptance relation -/

theorem sat_cat {a b : Rx} {zs : List Char} (h : Sat (.cat a b) zs) :
    ∃ xs ys, zs = xs ++ ys ∧ Sat a xs ∧ Sat b ys := by
  cases h with
  | cat ha hb => exact ⟨_, _, rfl, ha, hb⟩

theorem sat_cls {p : Char → Bool} {xs : List Char} (h : Sat (.cls p) xs) :
    ∃ c, xs = [c] ∧ p c = true := by
  cases h with
  | cls hc => exact ⟨_, rfl, hc⟩

theorem sat_wb {xs : List Char} (h : Sat .wb xs) : xs = [] := by
  cases h; rfl

theorem sat_star {p : Char → Bool} {xs : List Char} (h : Sat (.starC p) xs) :
    ∀ c ∈ xs, p c = true := by
  cases h with
  | star hall => exact hall

theorem sat_opt {a : Rx} {xs : List Char} (h : Sat (.opt a) xs) :
    xs = [] ∨ Sat a xs := by
  cases h with
  | optS ha => exact Or.inr ha
  | optN => exact Or.inl rfl

theorem sat_alt {a b : Rx} {xs : List Char} (h : Sat (.alt a b) xs) :
    Sat a xs ∨ Sat b xs := by
  cases h with
  | altL ha => exact Or.inl ha
  | altR hb => exact Or.inr hb

theorem sat_repCls {p : Char → Bool} :
    ∀ {n : Nat} {xs : List Char}, Sat (.rep (.cls p) n) xs →
      xs.length = n ∧ ∀ c ∈ xs, p c = true := by
  intro n
  induction n with
  | zero =>
    intro xs h
    cases h
    exact ⟨rfl, by simp⟩
  | succ n ih =>
    intro xs h
    cases h with
    | repS h1 h2 =>
      obtain ⟨c, rfl, hc⟩ := sat_cls h1
      obtain ⟨hlen, hall⟩ := ih h2
      refine ⟨by simp [hlen], ?_⟩
      intro d hd
      rcases List.mem_cons.mp hd with rfl | hd
      · exact hc
      · exact hall d hd

theorem litRest_false_nil {cs xs : List Char} (h : litRest false cs xs = some []) :
    xs = cs := by
  induction cs generalizing xs with
  | nil =>
    cases xs with
    | nil => rfl
    | cons d xs => simp [litRest] at h
  | cons c cs ih =>
    cases xs with
    | nil => simp [litRest] at h
    | cons d xs =>
      simp only [litRest] at h
      have hch : chEq false c d = (c == d) := rfl
      rw [hch] at h
      by_cases hc : c = d
      · subst hc
        rw [if_pos (by simp)] at h
        rw [ih h]
      · rw [if_neg (by simpa using hc)] at h
        exact absurd h (by simp)

theorem sat_lit_false {cs xs : List Char} (h : Sat (.lit cs false) xs) : xs = cs := by
  cases h with
  | lit hl => exact litRest_false_nil hl

theorem sat_chC {c : Char} {xs : List Char} (h : Sat (chC c) xs) : xs = [c] := by
  obtain ⟨d, rfl, hd⟩ := sat_cls h
  rw [beq_iff_eq] at hd
  rw [hd]

theorem sat_plusC {p : Char → Bool} {xs : List Char} (h : Sat (plusC p) xs) :
    xs ≠ [] ∧ ∀ c ∈ xs, p c = true := by
  obtain ⟨x1, x2, rfl, h1, h2⟩ := sat_cat h
  obtain ⟨c, rfl, hc⟩ := sat_cls h1
  have hall := sat_star h2
  refine ⟨by simp, ?_⟩
  intro d hd
  rcases List.mem_cons.mp hd with rfl | hd
  · exact hc
  · exact hall d hd

/-- Structure of any substring accepted by the email regex. -/
theorem sat_email {xs : List Char} (h : Sat emailRx xs) :
    ∃ lp dp tp, xs = lp ++ '@' :: (dp ++ '.' :: tp) ∧ lp ≠ [] ∧
      (∀ c ∈ lp, localCh c = true) ∧ (∀ c ∈ dp, domCh c = true) ∧
      (∀ c ∈ tp, tldCh c = true) := by
  unfold emailRx cats at h
  obtain ⟨w1, t1, rfl, hw, h⟩ := sat_cat h
  rw [sat_wb hw]
  obtain ⟨lp, t2, rfl, hlp, h⟩ := sat_cat h
  obtain ⟨hlpne, hlpall⟩ := sat_plusC hlp
  obtain ⟨a1, t3, rfl, ha, h⟩ := sat_cat h
  rw [sat_chC ha]
  obtain ⟨dp, t4, rfl, hdp, h⟩ := sat_cat h
  obtain ⟨hdpne, hdpall⟩ := sat_plusC hdp
  obtain ⟨p1, t5, rfl, hp, h⟩ := sat_cat h
  rw [sat_chC hp]
  obtain ⟨tl, w2, rfl, htl, hw2⟩ := sat_cat h
  rw [sat_wb hw2]
  unfold repMinC at htl
  obtain ⟨tta, ttb, rfl, hta, htb⟩ := sat_cat htl
  obtain ⟨-, htaall⟩ := sat_repCls hta
  have htball := sat_star htb
  refine ⟨lp, dp, tta ++ ttb, by simp, hlpne, hlpall, hdpall, ?_⟩
  intro c hc
  rcases List.mem_append.mp hc with hc | hc
  · exact htaall c hc
  · exact htball c hc

end Redakt

namespace Redakt

/-- No character admissible in an email match is a square bracket. -/
theorem email_char_not_bracket (c : Char)
    (h : localCh c = true ∨ c = '@' ∨ domCh c = true ∨ c = '.' ∨ tldCh c = true) :
    c ≠ '[' ∧ c ≠ ']' := by
  constructor <;> rintro rfl <;> revert h <;> decide

/-- An email-regex match can never overlap an occurrence of the credential
redaction marker `[REDACTED]@`: the brackets are not in any email character
class and the marker's `@` is preceded by `]`, which cannot end a local
part. -/
theorem email_match_marker_disjoint (cs : List Char) (i L k : Nat) (pr : Option Char)
    (hm : matchAt emailRx pr (cs.drop i) = some L)
    (hmk : (cs.drop k).take 11 = "[REDACTED]@".data) :
    i + L ≤ k ∨ k + 11 ≤ i := by
  obtain ⟨hLle, hsat⟩ := matchAt_sound hm
  set xs := (cs.drop i).take L with hxs
  obtain ⟨lp, dp, tp, hdec, hlpne, hlp, hdp, htp⟩ := sat_email hsat
  have hxslen : xs.length = L := by
    rw [hxs, List.length_take]
    omega
  have hG : ∀ j, j < L → cs[i+j]? = xs[j]? := by
    intro j hj
    rw [hxs, List.getElem?_take_of_lt hj, List.getElem?_drop]
  have hHm : ∀ m, m < 11 → cs[k+m]? = ("[REDACTED]@".data)[m]? := by
    intro m hmlt
    rw [← hmk, List.getElem?_take_of_lt hmlt, List.getElem?_drop]
  have hclass : ∀ c ∈ xs,
      localCh c = true ∨ c = '@' ∨ domCh c = true ∨ c = '.' ∨ tldCh c = true := by
    intro c hc
    rw [hdec] at hc
    rcases List.mem_append.mp hc with hc | hc
    · exact Or.inl (hlp c hc)
    · rcases List.mem_cons.mp hc with rfl | hc
      · exact Or.inr (Or.inl rfl)
      · rcases List.mem_append.mp hc with hc | hc
        · exact Or.inr (Or.inr (Or.inl (hdp c hc)))
        · rcases List.mem_cons.mp hc with rfl | hc
          · exact Or.inr (Or.inr (Or.inr (Or.inl rfl)))
          · exact Or.inr (Or.inr (Or.inr (Or.inr (htp c hc))))
  obtain ⟨c0, lps, hlp0⟩ := List.exists_cons_of_ne_nil hlpne
  have hxs0 : xs[0]? = some c0 := by
    rw [hdec, hlp0]
    simp
  have hc0loc : localCh c0 = true := hlp c0 (by rw [hlp0]; exact List.mem_cons_self c0 lps)
  have hat : xs[lp.length]? = some '@' := by
    rw [hdec, List.getElem?_append_right (le_refl lp.length)]
    simp
  have hlaL : lp.length < L := by
    have hxl := hxslen
    rw [hdec] at hxl
    simp [List.length_append] at hxl
    omega
  by_contra hcon
  push_neg at hcon
  obtain ⟨hk1, hk2⟩ := hcon
  by_cases hik : i ≤ k
  · have hj : k - i < L := by omega
    have h1 : cs[k]? = xs[k-i]? := by
      have hg := hG (k-i) hj
      rw [show i + (k-i) = k by omega] at hg
      exact hg
    have h2 : cs[k]? = some '[' := by
      have hm0 := hHm 0 (by omega)
      rw [show k + 0 = k by omega] at hm0
      rw [hm0]
      rfl
    have h4 : '[' ∈ xs := List.getElem?_mem (by rw [← h1, h2])
    exact (email_char_not_bracket '[' (hclass _ h4)).1 rfl
  · have hki : k < i := by omega
    by_cases h9 : k + 9 < i
    · have hieq : i = k + 10 := by omega
      have hg := hG 0 (by omega)
      rw [show i + 0 = i by omega] at hg
      have hm10 := hHm 10 (by omega)
      rw [show k + 10 = i by omega] at hm10
      have : some c0 = some '@' := by
        rw [← hxs0, ← hg, hm10]
        rfl
      have hc0 : c0 = '@' := by simpa using this
      rw [hc0] at hc0loc
      exact absurd hc0loc (by decide)
    · by_cases h9L : k + 9 < i + L
      · have hj : k + 9 - i < L := by omega
        have h1 : cs[k+9]? = xs[k+9-i]? := by
          have hg := hG (k+9-i) hj
          rw [show i + (k+9-i) = k + 9 by omega] at hg
          exact hg
        have h2 : cs[k+9]? = some ']' := by
          have hm9 := hHm 9 (by omega)
          rw [hm9]
          rfl
        have h4 : ']' ∈ xs := List.getElem?_mem (by rw [← h1, h2])
        exact (email_char_not_bracket ']' (hclass _ h4)).2 rfl
      · have hm' : 1 ≤ i + lp.length - k ∧ i + lp.length - k ≤ 8 := by omega
        have hg := hG lp.length hlaL
        have hmm := hHm (i + lp.length - k) (by omega)
        rw [show k + (i + lp.length - k) = i + lp.length by omega] at hmm
        have hval : ("[REDACTED]@".data)[i + lp.length - k]? = some '@' := by
          rw [← hmm, hg, hat]
        have hnot : ∀ m : Nat, 1 ≤ m → m ≤ 8 →
            ¬(("[REDACTED]@".data)[m]? = some '@') := by
          intro m hm1 hm8
          interval_cases m <;> decide
        exact hnot _ hm'.1 hm'.2 hval

end Redakt

namespace Redakt

theorem d05_digit {c : Char} (h : d05 c = true) : isDigitCh c = true := by
  simp [d05] at h
  simp [isDigitCh]
  omega

theorem d04_digit {c : Char} (h : d04 c = true) : isDigitCh c = true := by
  simp [d04] at h
  simp [isDigitCh]
  omega

theorem d01_digit {c : Char} (h : d01 c = true) : isDigitCh c = true := by
  simp [d01] at h
  rcases h with rfl | rfl <;> decide

/-- Every string accepted by the octet sub-regex is a 1–3 digit string whose
value is at most 255. -/
theorem sat_octet {o : List Char} (h : Sat octetRx o) :
    (∀ c ∈ o, isDigitCh c = true) ∧ 1 ≤ o.length ∧ o.length ≤ 3 ∧ octVal o ≤ 255 := by
  unfold octetRx alts cats at h
  rcases sat_alt h with h | h
  · -- 25[0-5]
    obtain ⟨w, t, rfl, hw, ht⟩ := sat_cat h
    rw [sat_lit_false hw]
    obtain ⟨c, rfl, hc⟩ := sat_cls ht
    have hcb : 48 ≤ c.toNat ∧ c.toNat ≤ 53 := by simpa [d05] using hc
    refine ⟨?_, by simp, by simp, ?_⟩
    · intro d hd
      simp [lits] at hd
      rcases hd with rfl | rfl | rfl
      · decide
      · decide
      · exact d05_digit hc
    · show octVal ['2', '5', c] ≤ 255
      simp [octVal, List.foldl]
      omega
  rcases sat_alt h with h | h
  · -- 2[0-4][0-9]
    obtain ⟨w, t, rfl, hw, ht⟩ := sat_cat h
    rw [sat_chC hw]
    obtain ⟨w2, t2, rfl, hw2, ht2⟩ := sat_cat ht
    obtain ⟨c1, rfl, hc1⟩ := sat_cls hw2
    obtain ⟨c2, rfl, hc2⟩ := sat_cls ht2
    have hb1 : 48 ≤ c1.toNat ∧ c1.toNat ≤ 52 := by simpa [d04] using hc1
    have hb2 : 48 ≤ c2.toNat ∧ c2.toNat ≤ 57 := by simpa [isDigitCh] using hc2
    refine ⟨?_, by simp, by simp, ?_⟩
    · intro d hd
      simp at hd
      rcases hd with rfl | rfl | rfl
      · decide
      · exact d04_digit hc1
      · exact hc2
    · show octVal ('2' :: c1 :: [c2]) ≤ 255
      simp [octVal, List.foldl]
      omega
  · -- [01]?[0-9][0-9]?
    obtain ⟨w0, t, rfl, hw0, ht⟩ := sat_cat h
    obtain ⟨w1, t2, rfl, hw1, ht2⟩ := sat_cat ht
    obtain ⟨c1, rfl, hc1⟩ := sat_cls hw1
    have hb1 : 48 ≤ c1.toNat ∧ c1.toNat ≤ 57 := by simpa [isDigitCh] using hc1
    rcases sat_opt hw0 with rfl | hw0
    · rcases sat_opt ht2 with rfl | hw2
      · refine ⟨?_, by simp, by simp, ?_⟩
        · intro d hd
          simp at hd
          rcases hd with rfl
          exact hc1
        · show octVal ([] ++ [c1] ++ []) ≤ 255
          simp [octVal, List.foldl]
          omega
      · obtain ⟨c2, rfl, hc2⟩ := sat_cls hw2
        have hb2 : 48 ≤ c2.toNat ∧ c2.toNat ≤ 57 := by simpa [isDigitCh] using hc2
        refine ⟨?_, by simp, by simp, ?_⟩
        · intro d hd
          simp at hd
          rcases hd with rfl | rfl
          · exact hc1
          · exact hc2
        · show octVal ([] ++ [c1] ++ [c2]) ≤ 255
          simp [octVal, List.foldl]
          omega
    · obtain ⟨c0, rfl, hc0⟩ := sat_cls hw0
      have hb0 : c0.toNat = 48 ∨ c0.toNat = 49 := by
        simp [d01] at hc0
        rcases hc0 with rfl | rfl
        · left; decide
        · right; decide
      rcases sat_opt ht2 with rfl | hw2
      · refine ⟨?_, by simp, by simp, ?_⟩
        · intro d hd
          simp at hd
          rcases hd with rfl | rfl
          · exact d01_digit hc0
          · exact hc1
        · show octVal ([c0] ++ [c1] ++ []) ≤ 255
          simp [octVal, List.foldl]
          omega
      · obtain ⟨c2, rfl, hc2⟩ := sat_cls hw2
        have hb2 : 48 ≤ c2.toNat ∧ c2.toNat ≤ 57 := by simpa [isDigitCh] using hc2
        refine ⟨?_, by simp, by simp, ?_⟩
        · intro d hd
          simp at hd
          rcases hd with rfl | rfl | rfl
          · exact d01_digit hc0
          · exact hc1
          · exact hc2
        · show octVal ([c0] ++ [c1] ++ [c2]) ≤ 255
          simp [octVal, List.foldl]
          omega

/-- Structure of any substring accepted by the IPv4 regex: four octets
separated by dots. -/
theorem sat_ipv4 {xs : List Char} (h : Sat ipv4Rx xs) :
    ∃ o1 o2 o3 o4, xs = o1 ++ '.' :: (o2 ++ '.' :: (o3 ++ '.' :: o4)) ∧
      Sat octetRx o1 ∧ Sat octetRx o2 ∧ Sat octetRx o3 ∧ Sat octetRx o4 := by
  unfold ipv4Rx cats at h
  obtain ⟨w1, t1, rfl, hw, h⟩ := sat_cat h
  rw [sat_wb hw]
  obtain ⟨r3, t2, rfl, h3, h⟩ := sat_cat h
  obtain ⟨o4, w2, rfl, ho4, hw2⟩ := sat_cat h
  rw [sat_wb hw2]
  cases h3 with
  | repS hg1 h3 =>
  cases h3 with
  | repS hg2 h3 =>
  cases h3 with
  | repS hg3 h3 =>
  cases h3 with
  | rep0 =>
  obtain ⟨o1, d1, rfl, ho1, hd1⟩ := sat_cat hg1
  obtain ⟨o2, d2, rfl, ho2, hd2⟩ := sat_cat hg2
  obtain ⟨o3, d3, rfl, ho3, hd3⟩ := sat_cat hg3
  rw [sat_chC hd1, sat_chC hd2, sat_chC hd3]
  exact ⟨o1, o2, o3, o4, by simp, ho1, ho2, ho3, ho4⟩

end Redakt

namespace Redakt

/-- C1: with the default policy, the urlWithCreds rule runs before the email
rule, an email match can never overlap the `[REDACTED]@` segment that the
urlWithCreds replacer produced (the brackets are outside every email
character class and the marker's `@` is preceded by `]`), so no `[EMAIL]`
is ever emitted inside an already-replaced credential segment; on a
credentialed URL whose path carries a bare email, the credential is
replaced by `://[REDACTED]@` and `[EMAIL]` appears only in the path. -/
theorem C1_ordering_url_creds_email :
    (∀ (cs : List Char) (i L k : Nat) (pr : Option Char),
        matchAt emailRx pr (cs.drop i) = some L →
        (cs.drop k).take 11 = "[REDACTED]@".data →
        i + L ≤ k ∨ k + 11 ≤ i) ∧
    redact "http://u:p@h.co/a@b.co" {} = .ok ⟨"http://[REDACTED]@h.co/[EMAIL]", none⟩ :=
  ⟨email_match_marker_disjoint, rfl⟩

/-- Witness for C1 at a concrete email match next to a concrete marker. -/
theorem C1_ordering_url_creds_email_witness :
    (matchAt emailRx (some ' ') ("[REDACTED]@ a@b.cc".data.drop 12) = some 6) ∧
    (("[REDACTED]@ a@b.cc".data.drop 0).take 11 = "[REDACTED]@".data) ∧
    (12 + 6 ≤ 0 ∨ 0 + 11 ≤ 12) :=
  ⟨by decide, by decide,
   C1_ordering_url_creds_email.1 "[REDACTED]@ a@b.cc".data 12 6 0 (some ' ')
     (by decide) (by decide)⟩

/-- C9: every substring matched by the IPv4 rule decomposes into four
dot-separated octets of one to three digits whose value is at most 255, and
consequently the default transform leaves `999.999.999.999` unchanged. -/
theorem C9_ipv4_octet_range :
    (∀ (pr : Option Char) (s : List Char) (L : Nat),
        matchAt ipv4Rx pr s = some L →
        ∃ o1 o2 o3 o4, s.take L = o1 ++ '.' :: (o2 ++ '.' :: (o3 ++ '.' :: o4)) ∧
          ∀ o ∈ [o1, o2, o3, o4],
            (∀ c ∈ o, isDigitCh c = true) ∧ 1 ≤ o.length ∧ o.length ≤ 3 ∧
              octVal o ≤ 255) ∧
    redact "999.999.999.999" {} = .ok ⟨"999.999.999.999", none⟩ := by
  refine ⟨?_, rfl⟩
  intro pr s L hm
  obtain ⟨-, hsat⟩ := matchAt_sound hm
  obtain ⟨o1, o2, o3, o4, hdec, h1, h2, h3, h4⟩ := sat_ipv4 hsat
  refine ⟨o1, o2, o3, o4, hdec, ?_⟩
  intro o ho
  simp at ho
  rcases ho with rfl | rfl | rfl | rfl
  · exact sat_octet h1
  · exact sat_octet h2
  · exact sat_octet h3
  · exact sat_octet h4

/-- Witness for C9 at the concrete match `1.2.3.4`. -/
theorem C9_ipv4_octet_range_witness :
    (matchAt ipv4Rx none "1.2.3.4".data = some 7) ∧
    (∃ o1 o2 o3 o4,
      "1.2.3.4".data.take 7 = o1 ++ '.' :: (o2 ++ '.' :: (o3 ++ '.' :: o4)) ∧
      ∀ o ∈ [o1, o2, o3, o4],
        (∀ c ∈ o, isDigitCh c = true) ∧ 1 ≤ o.length ∧ o.length ≤ 3 ∧
          octVal o ≤ 255) :=
  ⟨by decide, C9_ipv4_octet_range.1 none "1.2.3.4".data 7 (by decide)⟩

end Redakt

namespace Redakt

/-- The source's `getActivePatterns`, characterised through the
specification-worded `activeSpec`. -/
theorem getActive_eq (o : RedactOptions) :
    getActivePatterns o =
      (if _h : ((activeSpec o).filter (fun p => (patterns p).isNone)) ≠ [] then
        .error ((activeSpec o).filter (fun p => (patterns p).isNone))
      else .ok (activeSpec o)) := by
  have hbase : (if o.all then allPatternNames
      else if o.include' ≠ [] then o.include' else defaultPatterns) = baseSpec o := rfl
  have hact : (if o.exclude ≠ [] then
      (baseSpec o).filter (fun p => !(o.exclude.contains p)) else baseSpec o) =
      activeSpec o := by
    by_cases hx : o.exclude = []
    · simp [activeSpec, hx]
    · simp [activeSpec, hx]
  unfold getActivePatterns
  simp only [hbase, hact]
  by_cases hinv : ((activeSpec o).filter (fun p => (patterns p).isNone)) ≠ []
  · rw [if_pos hinv, dif_pos hinv]
  · rw [if_neg hinv, dif_neg hinv]

end Redakt

namespace Redakt

/-- C7: selection precedence: `all` selects every registered name, otherwise
a non-empty `include` is taken verbatim in caller order, otherwise the
default names; `exclude` is subtracted last; validation applies to what is
left. -/
theorem C7_selection_precedence (o : RedactOptions) :
    getActivePatterns o =
      (if _h : ((activeSpec o).filter (fun p => (patterns p).isNone)) ≠ [] then
        .error ((activeSpec o).filter (fun p => (patterns p).isNone))
      else .ok (activeSpec o)) :=
  getActive_eq o

/-- C6 fails on the code: a policy whose include list repeats a name is
accepted without error and yields an active list with duplicate names. -/
theorem C6_counterexample :
    getActivePatterns ⟨false, ["email", "email"], [], false⟩ = .ok ["email", "email"] ∧
    ¬ (["email", "email"] : List String).Nodup :=
  ⟨rfl, by decide⟩

/-- C6 amended: the active rule list is duplicate-free whenever the include
list is not itself the source of duplicates, i.e. when `all` is set, or
`include` is empty, or `include` has no duplicate names. -/
theorem C6_amended_no_duplicates (o : RedactOptions) (l : List String)
    (hok : getActivePatterns o = .ok l)
    (h : o.all = true ∨ o.include' = [] ∨ o.include'.Nodup) : l.Nodup := by
  rw [getActive_eq] at hok
  split at hok
  · exact absurd hok (by simp)
  · have hl : l = activeSpec o := by
      simpa using hok.symm
    have hbase : (baseSpec o).Nodup := by
      rcases h with ha | hi | hn
      · simp [baseSpec, ha]
        decide
      · unfold baseSpec
        rcases o.all with _ | _
        · simp [hi]
          decide
        · simp
          decide
      · unfold baseSpec
        rcases o.all with _ | _
        · by_cases hi : o.include' = []
          · simp [hi]
            decide
          · simp [hi]
            exact hn
        · simp
          decide
    rw [hl]
    exact List.Nodup.filter _ hbase

/-- Witness for the amended C6. -/
theorem C6_amended_no_duplicates_witness :
    (getActivePatterns ⟨false, ["email"], [], false⟩ = .ok ["email"]) ∧
    (["email"] : List String).Nodup :=
  ⟨rfl, C6_amended_no_duplicates ⟨false, ["email"], [], false⟩ ["email"] rfl
    (Or.inr (Or.inr (by decide)))⟩

end Redakt

namespace Redakt

/-- Witness-style instance of C7 at a concrete policy. -/
theorem C7_selection_precedence_witness :
    getActivePatterns ⟨false, [], ["email"], false⟩ =
      .ok ["privateKey", "jwt", "urlWithCreds", "githubToken", "slackToken",
           "bearerToken", "creditCard", "ssn", "phone", "ipv4"] := by
  rw [C7_selection_precedence]
  rfl

/-- C3 fails on the code: with `all` set, an unknown name in `include` is
ignored entirely and both operations succeed (include is not consulted at
all), contradicting the claimed unconditional failure. -/
theorem C3_counterexample :
    redact "x" ⟨true, ["nosuch"], [], false⟩ = .ok ⟨"x", none⟩ ∧
    detect "x" ⟨true, ["nosuch"], [], false⟩ = .ok ⟨false, [], 0⟩ :=
  ⟨rfl, rfl⟩

/-- C3 amended: when `all` is false and `include` is non-empty, both
operations fail with an error listing, in order, every include name that
survives `exclude` and is absent from the registry (collected, not only the
first), and no partial result is produced. -/
theorem C3_amended_unknown_includes (t : String) (o : RedactOptions)
    (hall : o.all = false) (hinc : o.include' ≠ [])
    (hbad : (o.include'.filter (fun p => !(o.exclude.contains p))).filter
        (fun p => (patterns p).isNone) ≠ []) :
    getActivePatterns o =
      .error ((o.include'.filter (fun p => !(o.exclude.contains p))).filter
        (fun p => (patterns p).isNone)) ∧
    redact t o =
      .error ((o.include'.filter (fun p => !(o.exclude.contains p))).filter
        (fun p => (patterns p).isNone)) ∧
    detect t o =
      .error ((o.include'.filter (fun p => !(o.exclude.contains p))).filter
        (fun p => (patterns p).isNone)) := by
  have hspec : activeSpec o = o.include'.filter (fun p => !(o.exclude.contains p)) := by
    unfold activeSpec baseSpec
    rw [hall]
    simp [hinc]
  have hga : getActivePatterns o =
      .error ((o.include'.filter (fun p => !(o.exclude.contains p))).filter
        (fun p => (patterns p).isNone)) := by
    rw [getActive_eq]
    rw [dif_pos (by rw [hspec]; exact hbad)]
    rw [hspec]
  refine ⟨hga, ?_, ?_⟩
  · unfold redact
    rw [hga]
  · unfold detect
    rw [hga]

/-- Witness for the amended C3. -/
theorem C3_amended_unknown_includes_witness :
    ((⟨false, ["nosuch"], [], false⟩ : RedactOptions).all = false) ∧
    ((((⟨false, ["nosuch"], [], false⟩ : RedactOptions).include'.filter
        (fun p => !((⟨false, ["nosuch"], [], false⟩ : RedactOptions).exclude.contains p))).filter
        (fun p => (patterns p).isNone)) ≠ []) ∧
    redact "x" ⟨false, ["nosuch"], [], false⟩ = .error ["nosuch"] := by
  refine ⟨rfl, by decide, ?_⟩
  have h := C3_amended_unknown_includes "x" ⟨false, ["nosuch"], [], false⟩ rfl
    (by decide) (by decide)
  exact h.2.1

end Redakt

namespace Redakt

/-- C10 fails on the code as stated: the unregistered exclude entry
`"nosuch"` raises no error, but removing it from `exclude` changes the
result (it stops shielding the identical unknown include name from
validation), so the result does not always equal the result with the entry
removed. -/
theorem C10_counterexample :
    redact "x" ⟨false, ["nosuch"], ["nosuch"], false⟩ = .ok ⟨"x", none⟩ ∧
    redact "x" ⟨false, ["nosuch"], [], false⟩ = .error ["nosuch"] ∧
    (Except.ok (⟨"x", none⟩ : RedactResult) ≠
      (Except.error ["nosuch"] : Except (List String) RedactResult)) :=
  ⟨rfl, rfl, by simp⟩

/-- C10 amended: exclude entries are never validated — inserting any extra
entry into `exclude` can only shrink the active list and never turns
success into an error; and an entry that does not occur in the selected
base set is silently ignored: inserting it into `exclude` leaves both
operations' results unchanged. -/
theorem C10_amended_exclude_not_validated (t : String) (o : RedactOptions)
    (x : String) (e₁ e₂ : List String) :
    (∀ l, getActivePatterns { o with exclude := e₁ ++ e₂ } = .ok l →
        getActivePatterns { o with exclude := e₁ ++ x :: e₂ } =
          .ok (l.filter (fun p => !(p == x)))) ∧
    (x ∉ baseSpec o →
      redact t { o with exclude := e₁ ++ x :: e₂ } = redact t { o with exclude := e₁ ++ e₂ } ∧
      detect t { o with exclude := e₁ ++ x :: e₂ } = detect t { o with exclude := e₁ ++ e₂ }) := by
  have hbase : ∀ e : List String, baseSpec { o with exclude := e } = baseSpec o := by
    intro e
    rfl
  have hcont : ∀ p, (!(List.contains (e₁ ++ x :: e₂) p)) =
      (!(p == x) && !(List.contains (e₁ ++ e₂) p)) := by
    intro p
    by_cases h1 : p ∈ e₁ <;> by_cases h2 : p ∈ e₂ <;> by_cases h3 : p = x <;>
      simp [h1, h2, h3]
  have hspec : activeSpec { o with exclude := e₁ ++ x :: e₂ } =
      (activeSpec { o with exclude := e₁ ++ e₂ }).filter (fun p => !(p == x)) := by
    unfold activeSpec
    rw [hbase, hbase, List.filter_filter]
    apply List.filter_congr
    intro p _
    exact hcont p
  constructor
  · intro l hok
    rw [getActive_eq] at hok
    split at hok
    · exact absurd hok (by simp)
    · rename_i hnoerr
      have hl : l = activeSpec { o with exclude := e₁ ++ e₂ } := by simpa using hok.symm
      have hvalid : ∀ p ∈ activeSpec { o with exclude := e₁ ++ e₂ },
          ¬((patterns p).isNone = true) := by
        rw [not_ne_iff, List.filter_eq_nil_iff] at hnoerr
        exact hnoerr
      rw [getActive_eq]
      have hnone : (activeSpec { o with exclude := e₁ ++ x :: e₂ }).filter
          (fun p => (patterns p).isNone) = [] := by
        rw [List.filter_eq_nil_iff]
        intro p hp
        rw [hspec] at hp
        exact hvalid p (List.mem_of_mem_filter hp)
      rw [dif_neg (by rw [hnone]; simp)]
      rw [hspec, hl]
  · intro hx
    have hsame : activeSpec { o with exclude := e₁ ++ x :: e₂ } =
        activeSpec { o with exclude := e₁ ++ e₂ } := by
      unfold activeSpec
      rw [hbase, hbase]
      apply List.filter_congr
      intro p hp
      have hpx : (p == x) = false := by
        rw [beq_eq_false_iff_ne]
        intro hpe
        exact hx (hpe ▸ hp)
      rw [hcont p, hpx]
      simp
    have hga : getActivePatterns { o with exclude := e₁ ++ x :: e₂ } =
        getActivePatterns { o with exclude := e₁ ++ e₂ } := by
      rw [getActive_eq, getActive_eq, hsame]
    constructor
    · unfold redact
      rw [hga]
    · unfold detect
      rw [hga]

/-- Witness for the amended C10. -/
theorem C10_amended_exclude_not_validated_witness :
    (getActivePatterns { (⟨false, ["email"], [], false⟩ : RedactOptions) with
        exclude := [] ++ [] } = .ok ["email"]) ∧
    ("nosuch" ∉ baseSpec (⟨false, ["email"], [], false⟩ : RedactOptions)) ∧
    (getActivePatterns { (⟨false, ["email"], [], false⟩ : RedactOptions) with
        exclude := [] ++ "nosuch" :: [] } = .ok (["email"].filter (fun p => !(p == "nosuch")))) ∧
    redact "x" { (⟨false, ["email"], [], false⟩ : RedactOptions) with
        exclude := [] ++ "nosuch" :: [] } =
      redact "x" { (⟨false, ["email"], [], false⟩ : RedactOptions) with exclude := [] ++ [] } :=
  ⟨rfl, by decide,
   (C10_amended_exclude_not_validated "x" ⟨false, ["email"], [], false⟩ "nosuch" [] []).1
     ["email"] rfl,
   ((C10_amended_exclude_not_validated "x" ⟨false, ["email"], [], false⟩ "nosuch" [] []).2
     (by decide)).1⟩

end Redakt

namespace Redakt

/-- C4 (code bug): the default transform is not idempotent.  On
`http://u:p@a:b@c` the urlWithCreds replacer rewrites only the first
`user:pass@` segment of the match, leaving a credential-shaped remainder
that matches again, so a second pass changes the text further. -/
theorem C4_idempotence_failure :
    redact "http://u:p@a:b@c" {} = .ok ⟨"http://[REDACTED]@a:b@c", none⟩ ∧
    redact "http://[REDACTED]@a:b@c" {} = .ok ⟨"http://[REDACTED]@c", none⟩ ∧
    ("http://[REDACTED]@c" : String) ≠ "http://[REDACTED]@a:b@c" :=
  ⟨rfl, rfl, by decide⟩

theorem setKey_pos {m : List (String × Nat)} {key : String} {v : Nat}
    (hm : ∀ e ∈ m, 0 < e.2) (hv : 0 < v) : ∀ e ∈ setKey m key v, 0 < e.2 := by
  intro e he
  unfold setKey at he
  split at he
  · rcases List.mem_map.mp he with ⟨a, ha, rfl⟩
    split
    · exact hv
    · exact hm a ha
  · rcases List.mem_append.mp he with he | he
    · exact hm e he
    · rcases List.mem_singleton.mp he with rfl
      exact hv

theorem setKey_fresh {m : List (String × Nat)} {key : String} {v : Nat}
    (h : m.any (fun e => e.1 == key) = false) : setKey m key v = m ++ [(key, v)] := by
  unfold setKey
  rw [if_neg]
  simp [h]

/-- Invariant of the `redact` pattern loop: statistics stay positive, and
with duplicate-free, fresh names the running total stays the sum of the
per-type counts. -/
theorem redactFold_inv :
    ∀ (names : List String) (t : String) (st : RedactStats),
      (∀ e ∈ st.byType, 0 < e.2) →
      ∃ st', (names.foldl redactStep (t, some st)).2 = some st' ∧
        (∀ e ∈ st'.byType, 0 < e.2) ∧
        (names.Nodup →
          (∀ n ∈ names, st.byType.any (fun e => e.1 == n) = false) →
          st.total = (st.byType.map Prod.snd).sum →
          st'.total = (st'.byType.map Prod.snd).sum) := by
  intro names
  induction names with
  | nil =>
    intro t st hpos
    exact ⟨st, rfl, hpos, fun _ _ h => h⟩
  | cons name rest ih =>
    intro t st hpos
    rw [List.foldl_cons]
    cases hpat : patterns name with
    | none =>
      have hstep : redactStep (t, some st) name = (t, some st) := by
        unfold redactStep
        rw [hpat]
      rw [hstep]
      obtain ⟨st', heq, hpos', hsum'⟩ := ih t st hpos
      refine ⟨st', heq, hpos', ?_⟩
      intro hnodup hfresh hsum
      exact hsum' (List.Nodup.of_cons hnodup)
        (fun n hn => hfresh n (List.mem_cons_of_mem name hn)) hsum
    | some p =>
      by_cases hr : 0 < (scanRep p.regex p.replace t.data).2
      · have hstep : redactStep (t, some st) name =
            (⟨(scanRep p.regex p.replace t.data).1⟩,
             some ⟨st.total + (scanRep p.regex p.replace t.data).2,
                   setKey st.byType name (scanRep p.regex p.replace t.data).2⟩) := by
          unfold redactStep
          rw [hpat]
          simp [hr]
        rw [hstep]
        obtain ⟨st', heq, hpos', hsum'⟩ :=
          ih ⟨(scanRep p.regex p.replace t.data).1⟩
            ⟨st.total + (scanRep p.regex p.replace t.data).2,
             setKey st.byType name (scanRep p.regex p.replace t.data).2⟩
            (setKey_pos hpos hr)
        refine ⟨st', heq, hpos', ?_⟩
        intro hnodup hfresh hsum
        have hname : name ∉ rest := (List.nodup_cons.mp hnodup).1
        have hfr : st.byType.any (fun e => e.1 == name) = false :=
          hfresh name (List.mem_cons_self name rest)
        have hkey : setKey st.byType name (scanRep p.regex p.replace t.data).2 =
            st.byType ++ [(name, (scanRep p.regex p.replace t.data).2)] :=
          setKey_fresh hfr
        apply hsum' (List.Nodup.of_cons hnodup)
        · intro n hn
          rw [hkey]
          simp only [List.any_append, List.any_cons, List.any_nil]
          have h1 : st.byType.any (fun e => e.1 == n) = false :=
            hfresh n (List.mem_cons_of_mem name hn)
          have h2 : (name == n) = false := by
            rw [beq_eq_false_iff_ne]
            intro hne
            exact hname (hne ▸ hn)
          simp [h1, h2]
        · rw [hkey]
          simp [hsum]
      · have hstep : redactStep (t, some st) name =
            (⟨(scanRep p.regex p.replace t.data).1⟩, some st) := by
          unfold redactStep
          rw [hpat]
          simp [hr]
        rw [hstep]
        obtain ⟨st', heq, hpos', hsum'⟩ :=
          ih ⟨(scanRep p.regex p.replace t.data).1⟩ st hpos
        refine ⟨st', heq, hpos', ?_⟩
        intro hnodup hfresh hsum
        exact hsum' (List.Nodup.of_cons hnodup)
          (fun n hn => hfresh n (List.mem_cons_of_mem name hn)) hsum

/-- The pattern loop never materialises statistics that were not requested. -/
theorem redactFold_none :
    ∀ (names : List String) (t : String),
      (names.foldl redactStep (t, none)).2 = none := by
  intro names
  induction names with
  | nil => intro t; rfl
  | cons name rest ih =>
    intro t
    rw [List.foldl_cons]
    cases hpat : patterns name with
    | none =>
      have hstep : redactStep (t, none) name = (t, none) := by
        unfold redactStep
        rw [hpat]
      rw [hstep]
      exact ih t
    | some p =>
      have hstep : redactStep (t, none) name =
          (⟨(scanRep p.regex p.replace t.data).1⟩, none) := by
        unfold redactStep
        rw [hpat]
      rw [hstep]
      exact ih _

end Redakt

namespace Redakt

/-- C5 fails on the code as stated: with a duplicated active name both
passes can count (the urlWithCreds output still matches), `byType` is
assigned (not accumulated), and `total` then exceeds the sum of the
`byType` values. -/
theorem C5_counterexample :
    redact "http://u:p@a:b@c" ⟨false, ["urlWithCreds", "urlWithCreds"], [], true⟩ =
      .ok ⟨"http://[REDACTED]@c", some ⟨2, [("urlWithCreds", 1)]⟩⟩ ∧
    ¬((⟨2, [("urlWithCreds", 1)]⟩ : RedactStats).total =
      ((⟨2, [("urlWithCreds", 1)]⟩ : RedactStats).byType.map Prod.snd).sum) :=
  ⟨rfl, by decide⟩

/-- C5 amended: every `byType` entry is strictly positive; `byType[name]` is
assigned, not accumulated, so `total` equals the sum of the `byType` values
whenever the active list has no duplicate name (in particular for every
policy not repeating a name in `include`). -/
theorem C5_amended_stats (t : String) (o : RedactOptions) (res : RedactResult)
    (st : RedactStats) (hok : redact t o = .ok res) (hst : res.stats = some st) :
    (∀ e ∈ st.byType, 0 < e.2) ∧
    (∀ names, getActivePatterns o = .ok names → names.Nodup →
      st.total = (st.byType.map Prod.snd).sum) := by
  unfold redact at hok
  cases hga : getActivePatterns o with
  | error e =>
    rw [hga] at hok
    exact absurd hok (by simp)
  | ok names =>
    rw [hga] at hok
    have hres : res = ⟨(names.foldl redactStep
        (t, if o.stats then some ⟨0, []⟩ else none)).1,
        (names.foldl redactStep (t, if o.stats then some ⟨0, []⟩ else none)).2⟩ := by
      simpa using hok.symm
    cases hos : o.stats with
    | false =>
      have hinit : (if o.stats = true then some (⟨0, []⟩ : RedactStats) else none) = none := by
        simp [hos]
      rw [hinit] at hres
      rw [hres] at hst
      simp only at hst
      rw [redactFold_none] at hst
      exact absurd hst (by simp)
    | true =>
      have hinit : (if o.stats = true then some (⟨0, []⟩ : RedactStats) else none) =
          some ⟨0, []⟩ := by
        simp [hos]
      rw [hinit] at hres
      obtain ⟨st', heq, hpos, hsum⟩ :=
        redactFold_inv names t ⟨0, []⟩ (by simp)
      rw [hres] at hst
      simp only at hst
      rw [heq] at hst
      have hstst : st' = st := by simpa using hst
      subst hstst
      refine ⟨hpos, ?_⟩
      intro names' hga' hnodup
      have hn : names' = names := by simpa using hga'.symm
      subst hn
      exact hsum hnodup (fun n _ => by simp) (by simp)

/-- Witness for the amended C5. -/
theorem C5_amended_stats_witness :
    (redact "a@b.cc x@y.zz" ⟨false, [], [], true⟩ =
      .ok ⟨"[EMAIL] [EMAIL]", some ⟨2, [("email", 2)]⟩⟩) ∧
    (∀ e ∈ (⟨2, [("email", 2)]⟩ : RedactStats).byType, 0 < e.2) ∧
    ((⟨2, [("email", 2)]⟩ : RedactStats).total =
      (((⟨2, [("email", 2)]⟩ : RedactStats).byType.map Prod.snd).sum)) := by
  refine ⟨rfl, ?_, ?_⟩
  · exact (C5_amended_stats "a@b.cc x@y.zz" ⟨false, [], [], true⟩
      ⟨"[EMAIL] [EMAIL]", some ⟨2, [("email", 2)]⟩⟩ ⟨2, [("email", 2)]⟩ rfl rfl).1
  · exact (C5_amended_stats "a@b.cc x@y.zz" ⟨false, [], [], true⟩
      ⟨"[EMAIL] [EMAIL]", some ⟨2, [("email", 2)]⟩⟩ ⟨2, [("email", 2)]⟩ rfl rfl).2
      defaultPatterns rfl (by decide)

end Redakt

namespace Redakt

theorem lookup_mem {β : Type} :
    ∀ {l : List (String × β)} {k : String} {v : β},
      l.lookup k = some v → (k, v) ∈ l := by
  intro l
  induction l with
  | nil => intro k v h; simp [List.lookup] at h
  | cons e rest ih =>
    intro k v h
    cases e with
    | mk a b =>
      rw [List.lookup] at h
      by_cases hk : k == a
      · rw [hk] at h
        have hv : b = v := by simpa using h
        have ha : a = k := by simpa using (beq_iff_eq.mp hk).symm
        rw [← hv, ← ha]
        exact List.mem_cons_self _ _
      · have hk' : (k == a) = false := by simpa using hk
        rw [hk'] at h
        exact List.mem_cons_of_mem _ (ih h)

theorem setEntry_mem {m : List (String × DetectEntry)} {key : String} {v : DetectEntry} :
    ∀ e ∈ setEntry m key v, e ∈ m ∨ e = (key, v) := by
  intro e he
  unfold setEntry at he
  split at he
  · rcases List.mem_map.mp he with ⟨a, ha, rfl⟩
    split
    · exact Or.inr rfl
    · exact Or.inl ha
  · rcases List.mem_append.mp he with he | he
    · exact Or.inl he
    · exact Or.inr (List.mem_singleton.mp he)

/-- the code's mask and the specification's wording agree. -/
theorem maskSample_eq_maskSpec (m : List Char) : maskSample m = maskSpec m := by
  unfold maskSample maskSpec
  by_cases h : 6 < m.length
  · rw [if_pos h, if_pos h, List.take_reverse, List.reverse_reverse]
  · rw [if_neg h, if_neg h]

/-- Invariant of the `detect` pattern loop: every recorded entry is the full
match list's count together with the first-seen–deduplicated, capped,
masked samples, and its count is positive. -/
theorem detectFold_inv (t : String) :
    ∀ (names : List String) (r : DetectResult),
      (∀ e ∈ r.matches', ∃ p, patterns e.1 = some p ∧
        0 < (allMatches p.regex t.data).length ∧
        e.2 = ⟨(allMatches p.regex t.data).length, p.description,
               ((dedupFS (allMatches p.regex t.data)).take 3).map maskSample⟩) →
      ∀ e ∈ (names.foldl (detectStep t) r).matches', ∃ p, patterns e.1 = some p ∧
        0 < (allMatches p.regex t.data).length ∧
        e.2 = ⟨(allMatches p.regex t.data).length, p.description,
               ((dedupFS (allMatches p.regex t.data)).take 3).map maskSample⟩ := by
  intro names
  induction names with
  | nil => intro r hr; exact hr
  | cons name rest ih =>
    intro r hr
    rw [List.foldl_cons]
    apply ih
    intro e he
    cases hpat : patterns name with
    | none =>
      have hstep : detectStep t r name = r := by
        unfold detectStep
        rw [hpat]
      rw [hstep] at he
      exact hr e he
    | some p =>
      by_cases hms : 0 < (allMatches p.regex t.data).length
      · have hstep : detectStep t r name =
            { hasSensitiveData := true
              matches' := setEntry r.matches' name
                ⟨(allMatches p.regex t.data).length, p.description,
                 ((dedupFS (allMatches p.regex t.data)).take 3).map maskSample⟩
              total := r.total + (allMatches p.regex t.data).length } := by
          unfold detectStep
          rw [hpat]
          simp [hms]
        rw [hstep] at he
        simp only at he
        rcases setEntry_mem e he with he | rfl
        · exact hr e he
        · exact ⟨p, hpat, hms, rfl⟩
      · have hstep : detectStep t r name = r := by
          unfold detectStep
          rw [hpat]
          simp [hms]
        rw [hstep] at he
        exact hr e he

/-- C8: for every rule reported by `detect`, the samples are the raw
matched substrings de-duplicated in first-seen order, capped at three, then
masked: first three characters, an ellipsis and the last three characters
for matches longer than six characters, the fixed mask `***` otherwise; the
count is the positive number of raw matches. -/
theorem C8_sample_masking (t : String) (o : RedactOptions) (r : DetectResult)
    (name : String) (e : DetectEntry)
    (hok : detect t o = .ok r) (hlook : r.matches'.lookup name = some e) :
    ∃ p, patterns name = some p ∧
      0 < e.count ∧
      e.count = (allMatches p.regex t.data).length ∧
      e.samples = ((dedupFS (allMatches p.regex t.data)).take 3).map maskSpec := by
  unfold detect at hok
  cases hga : getActivePatterns o with
  | error err =>
    rw [hga] at hok
    exact absurd hok (by simp)
  | ok names =>
    rw [hga] at hok
    have hr : r = names.foldl (detectStep t) ⟨false, [], 0⟩ := by
      simpa using hok.symm
    have hmem : (name, e) ∈ r.matches' := lookup_mem hlook
    rw [hr] at hmem
    obtain ⟨p, hpat, hpos, hentry⟩ :=
      detectFold_inv t names ⟨false, [], 0⟩ (by simp) (name, e) hmem
    have hentry' : e = ⟨(allMatches p.regex t.data).length, p.description,
        ((dedupFS (allMatches p.regex t.data)).take 3).map maskSample⟩ := hentry
    subst hentry'
    refine ⟨p, hpat, hpos, rfl, ?_⟩
    simp only
    apply List.map_congr_left
    intro m _
    exact maskSample_eq_maskSpec m

/-- Witness for C8 at a concrete detection. -/
theorem C8_sample_masking_witness :
    (detect "mail verylongemail@example.com" {} =
      .ok ⟨true, [("email", ⟨1, "Email addresses", ["ver...com"]⟩)], 1⟩) ∧
    ([("email", (⟨1, "Email addresses", ["ver...com"]⟩ : DetectEntry))].lookup "email" =
      some ⟨1, "Email addresses", ["ver...com"]⟩) ∧
    (∃ p, patterns "email" = some p ∧
      0 < (1 : Nat) ∧
      (1 : Nat) = (allMatches p.regex "mail verylongemail@example.com".data).length ∧
      (["ver...com"] : List String) =
        ((dedupFS (allMatches p.regex "mail verylongemail@example.com".data)).take 3).map
          maskSpec) :=
  ⟨rfl, rfl,
   C8_sample_masking "mail verylongemail@example.com" {}
     ⟨true, [("email", ⟨1, "Email addresses", ["ver...com"]⟩)], 1⟩ "email"
     ⟨1, "Email addresses", ["ver...com"]⟩ rfl rfl⟩

end Redakt

namespace Redakt

/-- A replace pass over a text that is exactly one match: the callback runs
once on the whole text; if it returns it unchanged, nothing changes and
nothing is counted. -/
theorem scanRepF_full {r : Rx} {rp : List Char → List Char} {c : Char}
    {rest : List Char} {fuel : Nat}
    (hm : matchAt r none (c :: rest) = some (rest.length + 1))
    (hrp : rp (c :: rest) = c :: rest) :
    scanRepF r rp (fuel + 1) none (c :: rest) = (c :: rest, 0) := by
  simp only [scanRepF]
  rw [hm]
  simp only [Nat.succ_ne_zero, if_false]
  have htake : (c :: rest).take (rest.length + 1) = c :: rest := by
    rw [show rest.length + 1 = (c :: rest).length from by simp, List.take_length]
  have hdrop : (c :: rest).drop (rest.length + 1) = [] := by
    rw [show rest.length + 1 = (c :: rest).length from by simp, List.drop_length]
  rw [htake, hdrop, hrp]
  simp [scanRepF]

/-- A match pass over a text that is exactly one match reports exactly that
match. -/
theorem allMatchesF_full {r : Rx} {c : Char} {rest : List Char} {fuel : Nat}
    (hm : matchAt r none (c :: rest) = some (rest.length + 1)) :
    allMatchesF r (fuel + 1) none (c :: rest) = [c :: rest] := by
  simp only [allMatchesF]
  rw [hm]
  simp only [Nat.succ_ne_zero, if_false]
  have htake : (c :: rest).take (rest.length + 1) = c :: rest := by
    rw [show rest.length + 1 = (c :: rest).length from by simp, List.take_length]
  have hdrop : (c :: rest).drop (rest.length + 1) = [] := by
    rw [show rest.length + 1 = (c :: rest).length from by simp, List.drop_length]
  rw [htake, hdrop]
  simp [allMatchesF]

/-- C2 fails on the code for `inspect`: on a 40-character match with a
single distinct character the replacer returns its input unchanged (first
conjunct), transform counts nothing, yet `detect` counts and samples the
match, because detection never consults replacers. -/
theorem C2_counterexample :
    (awsSecretRepl "aaaaaaaaaaaaaaaaaaaaaaaaaaaaaaaaaaaaaaaa".data =
      "aaaaaaaaaaaaaaaaaaaaaaaaaaaaaaaaaaaaaaaa".data) ∧
    (redact "aaaaaaaaaaaaaaaaaaaaaaaaaaaaaaaaaaaaaaaa" ⟨false, ["awsSecret"], [], true⟩ =
      .ok ⟨"aaaaaaaaaaaaaaaaaaaaaaaaaaaaaaaaaaaaaaaa", some ⟨0, []⟩⟩) ∧
    (detect "aaaaaaaaaaaaaaaaaaaaaaaaaaaaaaaaaaaaaaaa" ⟨false, ["awsSecret"], [], false⟩ =
      .ok ⟨true, [("awsSecret", ⟨1, "AWS Secret Access Keys", ["aaa...aaa"]⟩)], 1⟩) :=
  ⟨rfl, rfl, rfl⟩

/-- C2 amended: a replacer invocation that returns its input unchanged is
not counted by `transform` (the text is returned unchanged with zero
statistics), but `inspect` still counts and samples the regex match, since
detection works on raw regex matches and never invokes replacers. -/
theorem C2_amended_unchanged_replacer (m : String)
    (hlen : m.data.length = 40)
    (hm : matchAt awsSecretRx none m.data = some 40)
    (hdiv : m.data.eraseDups.length ≤ 15) :
    redact m ⟨false, ["awsSecret"], [], true⟩ = .ok ⟨m, some ⟨0, []⟩⟩ ∧
    detect m ⟨false, ["awsSecret"], [], false⟩ =
      .ok ⟨true, [("awsSecret", ⟨1, "AWS Secret Access Keys", [maskSample m.data]⟩)], 1⟩ := by
  have hpat : patterns "awsSecret" =
      some ⟨awsSecretRx, awsSecretRepl, "AWS Secret Access Keys", 90⟩ := rfl
  cases hd : m.data with
  | nil => rw [hd] at hlen; simp at hlen
  | cons c rest =>
    have hrlen : rest.length = 39 := by
      rw [hd] at hlen
      simpa using hlen
    rw [hd] at hm hdiv
    have hm' : matchAt awsSecretRx none (c :: rest) = some (rest.length + 1) := by
      rw [hm, hrlen]
    have hrp : awsSecretRepl (c :: rest) = c :: rest := by
      unfold awsSecretRepl
      rw [if_neg]
      omega
    have hscan : scanRep awsSecretRx awsSecretRepl (c :: rest) = (c :: rest, 0) := by
      unfold scanRep
      rw [show (c :: rest).length = 39 + 1 from by simp [hrlen]]
      exact scanRepF_full hm' hrp
    have hmt : allMatches awsSecretRx (c :: rest) = [c :: rest] := by
      unfold allMatches
      rw [show (c :: rest).length = 39 + 1 from by simp [hrlen]]
      exact allMatchesF_full hm'
    constructor
    · have hstep : redactStep (m, some ⟨0, []⟩) "awsSecret" = (m, some ⟨0, []⟩) := by
        unfold redactStep
        rw [hpat]
        simp only [hd, hscan]
        rw [← hd]
        rfl
      unfold redact
      rw [show getActivePatterns ⟨false, ["awsSecret"], [], true⟩ = .ok ["awsSecret"] from rfl]
      show Except.ok (⟨(List.foldl redactStep (m, some ⟨0, []⟩) ["awsSecret"]).1,
        (List.foldl redactStep (m, some ⟨0, []⟩) ["awsSecret"]).2⟩ : RedactResult) = _
      simp only [List.foldl_cons, List.foldl_nil]
      rw [hstep]
    · have hstep : detectStep m ⟨false, [], 0⟩ "awsSecret" =
          ⟨true, [("awsSecret", ⟨1, "AWS Secret Access Keys", [maskSample (c :: rest)]⟩)], 1⟩ := by
        unfold detectStep
        rw [hpat]
        simp only [hd, hmt]
        simp [setEntry, dedupFS, dedupAux]
      unfold detect
      rw [show getActivePatterns ⟨false, ["awsSecret"], [], false⟩ = .ok ["awsSecret"] from rfl]
      simp only [List.foldl_cons, List.foldl_nil]
      rw [hstep]

/-- Witness for the amended C2. -/
theorem C2_amended_unchanged_replacer_witness :
    ("aaaaaaaaaaaaaaaaaaaaaaaaaaaaaaaaaaaaaaaa".data.length = 40) ∧
    (matchAt awsSecretRx none "aaaaaaaaaaaaaaaaaaaaaaaaaaaaaaaaaaaaaaaa".data = some 40) ∧
    ("aaaaaaaaaaaaaaaaaaaaaaaaaaaaaaaaaaaaaaaa".data.eraseDups.length ≤ 15) ∧
    redact "aaaaaaaaaaaaaaaaaaaaaaaaaaaaaaaaaaaaaaaa" ⟨false, ["awsSecret"], [], true⟩ =
      .ok ⟨"aaaaaaaaaaaaaaaaaaaaaaaaaaaaaaaaaaaaaaaa", some ⟨0, []⟩⟩ :=
  ⟨by decide, by decide, by decide,
   (C2_amended_unchanged_replacer "aaaaaaaaaaaaaaaaaaaaaaaaaaaaaaaaaaaaaaaa"
     (by decide) (by decide) (by decide)).1⟩

end Redakt
